import Mathlib

/-!
Shallow embedding of the batched date-range replay loop of
`streaming-stock-data-analysis-setup.py` (the while loop over `datelist`),
together with the one-time table-bootstrap step.

Modelling choices, each traceable to a source line:

* A source row (`stockDailyPrices`) is a `Record`: its ordering key
  `price_date` (ISO dates compare like their `%Y-%m-%d` strings, so they are
  modelled as `Nat`) plus an opaque payload standing for the remaining
  columns (ticker, open, high, ...), which the loop copies verbatim
  (`select f.*`).
* `datelist` is the result of
  `select distinct price_date from stockDailyPrices order by price_date`:
  the strictly ascending list of the distinct keys, computed by
  `distinctSorted` (dedup + insertion into sorted position).
* Python list indexing (`datelist[i]`, `datelist[i+daysAtOnce-1]`) is
  `pyGet`: nonnegative indices below the length, negative indices counted
  from the end, and `none` (an `IndexError`) otherwise.  The source performs
  no clamping of the upper-bound index.
* The `while (i < datelist_len)` loop with `datelist_len = len(datelist) - 1`
  (Python integers, hence the `Int` cursor and bound) is `replayLoop`, made
  total with a fuel argument; running out of fuel is reported as
  `Outcome.fuelOut` and is distinguishable from every real exit of the loop.
  Each iteration reads the two bounds, executes the
  `insert into ... where price_date >= min and price_date <= max` append
  (an atomic append delegated to the engine; its possible failure is the
  oracle `ok`, one `Bool` per batch ordinal, a failed append raising
  `Outcome.appendFailed` with the bounds of the offending insert statement),
  then advances `i = i + daysAtOnce`.  `print` and `time.sleep(7)` have no
  effect on the state and are not modelled.
* The table bootstrap (`dbutils.fs.rm(deltaPricePath, recurse=True)` followed
  by `spark.read.parquet(...).limit(0).write.mode("overwrite")`) is
  `bootstrapPrice` over an `Option DeltaTable` location state.
-/

/-- One row of the `stockDailyPrices` source data: the `price_date` ordering
key and an opaque payload for the remaining columns. -/
structure Record where
  price_date : Nat
  payload : Nat
deriving DecidableEq, Repr

/-- Python list indexing on a `List Nat`: `l[idx]` allows negative indices
counted from the end and raises `IndexError` (here: `none`) out of range. -/
def pyGet (l : List Nat) (idx : Int) : Option Nat :=
  if 0 ≤ idx ∧ idx < (l.length : Int) then l.get? idx.toNat
  else if 0 ≤ idx + (l.length : Int) ∧ idx < 0 then l.get? (idx + (l.length : Int)).toNat
  else none

/-- Insert a key into a strictly ascending list, keeping it strictly
ascending (duplicates are dropped). -/
def insertKey (d : Nat) : List Nat → List Nat
  | [] => [d]
  | x :: xs => if d < x then d :: x :: xs else if d = x then x :: xs else x :: insertKey d xs

/-- The distinct values of a list, in ascending order: the model of
`select distinct price_date ... order by price_date`. -/
def distinctSorted : List Nat → List Nat
  | [] => []
  | d :: l => insertKey d (distinctSorted l)

/-- `datelist` of the source: the sorted distinct `price_date` values. -/
def datelist (src : List Record) : List Nat :=
  distinctSorted (src.map Record.price_date)

/-- Number of distinct ordering keys of the source (`len(datelist)`). -/
def nKeys (src : List Record) : Nat := (datelist src).length

/-- The append oracle under which every batch append succeeds. -/
def okAll : Nat → Bool := fun _ => true

/-- The loop state: cursor `i` (a Python integer), the number `k` of batch
appends completed so far, and the target table contents. -/
structure St where
  i : Int
  k : Nat
  table : List Record
deriving DecidableEq, Repr

/-- How a run of the replay loop ends. -/
inductive Outcome where
  /-- The `while` condition became false; the driver returns normally. -/
  | done (st : St) : Outcome
  /-- A `datelist[...]` access raised `IndexError` at the given index. -/
  | indexFault (idx : Int) (st : St) : Outcome
  /-- A batch append failed; the bounds of the offending insert are carried. -/
  | appendFailed (bmin bmax : Nat) (st : St) : Outcome
  /-- The fuel ran out while the loop was still running (model artifact). -/
  | fuelOut (st : St) : Outcome
deriving DecidableEq, Repr

/-- The state carried by any outcome. -/
def stOf : Outcome → St
  | .done st => st
  | .indexFault _ st => st
  | .appendFailed _ _ st => st
  | .fuelOut st => st

/-- The replay `while` loop, one fuel unit per entered iteration.  Faithful
to the source:

* condition `i < datelist_len` with `datelist_len = len(datelist) - 1`;
* `price_date_min = datelist[i]`, then `price_date_max =
  datelist[i+daysAtOnce-1]` (no clamping; a failed access is an
  `IndexError`);
* the insert appends every source row with
  `price_date_min <= price_date <= price_date_max`;
* `i = i + daysAtOnce`. -/
def replayLoop (src : List Record) (keys : List Nat) (b : Int) (ok : Nat → Bool) :
    Nat → Int → Nat → List Record → Outcome
  | 0, i, k, t =>
    if i < (keys.length : Int) - 1 then .fuelOut ⟨i, k, t⟩ else .done ⟨i, k, t⟩
  | fuel + 1, i, k, t =>
    if i < (keys.length : Int) - 1 then
      match pyGet keys i, pyGet keys (i + b - 1) with
      | none, _ => .indexFault i ⟨i, k, t⟩
      | some _, none => .indexFault (i + b - 1) ⟨i, k, t⟩
      | some bmin, some bmax =>
        if ok k then
          replayLoop src keys b ok fuel (i + b) (k + 1)
            (t ++ src.filter (fun r => bmin ≤ r.price_date && r.price_date ≤ bmax))
        else .appendFailed bmin bmax ⟨i, k, t⟩
    else .done ⟨i, k, t⟩

/-- A full run of the replay driver: cursor `i = 0`, empty target table. -/
def replay (src : List Record) (b : Int) (ok : Nat → Bool) (fuel : Nat) : Outcome :=
  replayLoop src (datelist src) b ok fuel 0 0 []

/-- Lower bound of batch `c`: `datelist[c*b]`. -/
def batchMin (src : List Record) (b : Int) (c : Nat) : Nat :=
  (datelist src).getD (c * b.toNat) 0

/-- Upper bound of batch `c`: `datelist[c*b + b - 1]` (the unclamped index
the source uses, read at the batch's cursor position). -/
def batchMax (src : List Record) (b : Int) (c : Nat) : Nat :=
  (datelist src).getD (c * b.toNat + b.toNat - 1) 0

/-- The rows batch `c` appends: the source rows whose key lies in
`[batchMin c, batchMax c]` inclusive. -/
def window (src : List Record) (b : Int) (c : Nat) : List Record :=
  src.filter (fun r => batchMin src b c ≤ r.price_date && r.price_date ≤ batchMax src b c)

/-- The target table after `c` completed batch appends. -/
def cumTable (src : List Record) (b : Int) : Nat → List Record
  | 0 => []
  | c + 1 => cumTable src b c ++ window src b c

/-- Whether a record's key lies in the window of one of the first `c`
batches. -/
def inWindows (src : List Record) (b : Int) (c : Nat) (r : Record) : Bool :=
  (List.range c).any fun j =>
    batchMin src b j ≤ r.price_date && r.price_date ≤ batchMax src b j

/-- Number of batch appends the loop completes: `(n-1)/b` when `b` divides
`n-1`, `(n-1)/b + 1` when `(n-1) % b = b - 1` (the final window lands
exactly on the last index), and `(n-1)/b` before the index fault otherwise. -/
def appendedBatches (src : List Record) (b : Int) : Nat :=
  if (nKeys src - 1) % b.toNat = 0 then (nKeys src - 1) / b.toNat
  else if (nKeys src - 1) % b.toNat = b.toNat - 1 then (nKeys src - 1) / b.toNat + 1
  else (nKeys src - 1) / b.toNat

/-- The window appended on every iteration when `daysAtOnce = 0`: from
`datelist[0]` up to `datelist[-1]`, the last key. -/
def fullWin (src : List Record) : List Record :=
  src.filter fun r =>
    (datelist src).getD 0 0 ≤ r.price_date && r.price_date ≤ (datelist src).getD (nKeys src - 1) 0

/-- `f` copies of `fullWin` in append order. -/
def fullRep (src : List Record) : Nat → List Record
  | 0 => []
  | f + 1 => fullWin src ++ fullRep src f

/-- Concrete source with `n` rows of distinct dates `1..n` (payload `0`). -/
def srcN (n : Nat) : List Record := (List.range n).map fun j => ⟨j + 1, 0⟩

/-- A materialized table: its schema (column names) and its rows. -/
structure DeltaTable where
  schema : List String
  rows : List Record
deriving DecidableEq

/-- `dbutils.fs.rm(path, recurse=True)`: the location is left empty. -/
def fsRm (_loc : Option DeltaTable) : Option DeltaTable := none

/-- `df.limit(0)`: same schema, no rows. -/
def limitZero (df : DeltaTable) : DeltaTable := ⟨df.schema, []⟩

/-- `df.write.mode("overwrite").format("delta").save(path)`: the location now
holds exactly `df`, whatever was there before. -/
def writeOverwriteDelta (df : DeltaTable) (_loc : Option DeltaTable) : Option DeltaTable :=
  some df

/-- The one-time bootstrap of the price table: remove the delta location,
then write the source parquet data with `limit(0)` to it. -/
def bootstrapPrice (srcParquet : DeltaTable) (loc : Option DeltaTable) : Option DeltaTable :=
  writeOverwriteDelta (limitZero srcParquet) (fsRm loc)

/-! ### Facts about the distinct sorted key sequence -/

theorem mem_insertKey {y d : Nat} {l : List Nat} :
    y ∈ insertKey d l ↔ y = d ∨ y ∈ l := by
  induction l with
  | nil => simp [insertKey]
  | cons x xs ih =>
    simp only [insertKey]
    split_ifs with h1 h2
    · simp [List.mem_cons]
    · subst h2
      simp only [List.mem_cons]
      tauto
    · simp only [List.mem_cons, ih]
      tauto

theorem pairwise_insertKey {d : Nat} {l : List Nat}
    (h : l.Pairwise (· < ·)) : (insertKey d l).Pairwise (· < ·) := by
  induction l with
  | nil => simp [insertKey]
  | cons x xs ih =>
    rcases List.pairwise_cons.mp h with ⟨hx, hxs⟩
    simp only [insertKey]
    split_ifs with h1 h2
    · refine List.pairwise_cons.mpr ⟨?_, h⟩
      intro y hy
      rcases List.mem_cons.mp hy with rfl | hy
      · exact h1
      · exact lt_trans h1 (hx y hy)
    · exact h
    · have hxd : x < d := by omega
      refine List.pairwise_cons.mpr ⟨?_, ih hxs⟩
      intro y hy
      rcases mem_insertKey.mp hy with rfl | hy
      · exact hxd
      · exact hx y hy

theorem pairwise_distinctSorted (l : List Nat) :
    (distinctSorted l).Pairwise (· < ·) := by
  induction l with
  | nil => simp [distinctSorted]
  | cons d l ih => exact pairwise_insertKey ih

theorem mem_distinctSorted {y : Nat} {l : List Nat} :
    y ∈ distinctSorted l ↔ y ∈ l := by
  induction l with
  | nil => simp [distinctSorted]
  | cons d l ih => simp [distinctSorted, mem_insertKey, ih]

theorem datelist_pairwise (src : List Record) :
    (datelist src).Pairwise (· < ·) :=
  pairwise_distinctSorted _

/-- Every source row's key occurs in `datelist` at some index. -/
theorem key_index {src : List Record} {r : Record} (hr : r ∈ src) :
    ∃ s : Nat, ∃ hs : s < (datelist src).length,
      (datelist src).get ⟨s, hs⟩ = r.price_date := by
  have hmem : r.price_date ∈ datelist src := by
    refine mem_distinctSorted.mpr ?_
    exact List.mem_map.mpr ⟨r, hr, rfl⟩
  rcases List.mem_iff_get.mp hmem with ⟨⟨s, hs⟩, hget⟩
  exact ⟨s, hs, hget⟩

theorem keys_get_lt {src : List Record} {s t : Nat} (hst : s < t)
    (hs : s < (datelist src).length) (ht : t < (datelist src).length) :
    (datelist src).get ⟨s, hs⟩ < (datelist src).get ⟨t, ht⟩ :=
  List.pairwise_iff_get.mp (datelist_pairwise src) ⟨s, hs⟩ ⟨t, ht⟩ hst

theorem keys_get_le {src : List Record} {s t : Nat} (hst : s ≤ t)
    (hs : s < (datelist src).length) (ht : t < (datelist src).length) :
    (datelist src).get ⟨s, hs⟩ ≤ (datelist src).get ⟨t, ht⟩ := by
  rcases Nat.lt_or_ge s t with h | h
  · exact le_of_lt (keys_get_lt h hs ht)
  · have : s = t := le_antisymm hst h
    subst this
    exact le_refl _

theorem keys_le_index {src : List Record} {s t : Nat}
    (hs : s < (datelist src).length) (ht : t < (datelist src).length)
    (h : (datelist src).get ⟨s, hs⟩ ≤ (datelist src).get ⟨t, ht⟩) : s ≤ t := by
  by_contra hc
  exact absurd (keys_get_lt (by omega) ht hs) (by omega)

/-! ### Evaluating `pyGet` -/

theorem pyGet_nat (l : List Nat) (j : Nat) : pyGet l (j : Int) = l.get? j := by
  unfold pyGet
  by_cases h : j < l.length
  · rw [if_pos (by constructor <;> omega)]
    simp
  · rw [if_neg (by omega), if_neg (by omega)]
    exact (List.get?_eq_none.mpr (by omega)).symm

theorem pyGet_in {l : List Nat} {j : Nat} (h : j < l.length) :
    pyGet l (j : Int) = some (l.get ⟨j, h⟩) := by
  rw [pyGet_nat, List.get?_eq_get h]

theorem pyGet_out {l : List Nat} {j : Nat} (h : l.length ≤ j) :
    pyGet l (j : Int) = none := by
  rw [pyGet_nat]
  exact List.get?_eq_none.mpr h

theorem pyGet_out_int {l : List Nat} {idx : Int} (h : (l.length : Int) ≤ idx) :
    pyGet l idx = none := by
  have hj : idx = ((idx.toNat : Nat) : Int) := by omega
  rw [hj, pyGet_nat]
  exact List.get?_eq_none.mpr (by omega)

theorem pyGet_neg_one {l : List Nat} (h : 1 ≤ l.length) :
    pyGet l (-1) = some (l.getD (l.length - 1) 0) := by
  unfold pyGet
  rw [if_neg (by omega), if_pos (by constructor <;> omega)]
  have ht : ((-1 : Int) + l.length).toNat = l.length - 1 := by omega
  rw [ht, List.getD_eq_get? ]
  rw [List.get?_eq_get (by omega)]
  rfl

theorem pyGet_in_getD {l : List Nat} {j : Nat} (h : j < l.length) :
    pyGet l (j : Int) = some (l.getD j 0) := by
  rw [pyGet_in h, List.getD_eq_get?, List.get?_eq_get h]
  rfl

/-! ### Unfolding the loop one step at a time -/

theorem replayLoop_exit {src : List Record} {keys : List Nat} {b : Int}
    {ok : Nat → Bool} {fuel : Nat} {i : Int} {k : Nat} {t : List Record}
    (h : ¬ i < (keys.length : Int) - 1) :
    replayLoop src keys b ok fuel i k t = .done ⟨i, k, t⟩ := by
  cases fuel with
  | zero => simp only [replayLoop, if_neg h]
  | succ fuel => simp only [replayLoop, if_neg h]

theorem replayLoop_fuel_zero {src : List Record} {keys : List Nat} {b : Int}
    {ok : Nat → Bool} {i : Int} {k : Nat} {t : List Record}
    (h : i < (keys.length : Int) - 1) :
    replayLoop src keys b ok 0 i k t = .fuelOut ⟨i, k, t⟩ := by
  simp only [replayLoop, if_pos h]

theorem replayLoop_step {src : List Record} {keys : List Nat} {b : Int}
    {ok : Nat → Bool} {fuel : Nat} {i : Int} {k : Nat} {t : List Record}
    {vmin vmax : Nat}
    (h : i < (keys.length : Int) - 1)
    (hmin : pyGet keys i = some vmin)
    (hmax : pyGet keys (i + b - 1) = some vmax) :
    replayLoop src keys b ok (fuel + 1) i k t =
      if ok k then
        replayLoop src keys b ok fuel (i + b) (k + 1)
          (t ++ src.filter (fun r => vmin ≤ r.price_date && r.price_date ≤ vmax))
      else .appendFailed vmin vmax ⟨i, k, t⟩ := by
  simp only [replayLoop, if_pos h, hmin, hmax]

theorem replayLoop_step_fault {src : List Record} {keys : List Nat} {b : Int}
    {ok : Nat → Bool} {fuel : Nat} {i : Int} {k : Nat} {t : List Record}
    {vmin : Nat}
    (h : i < (keys.length : Int) - 1)
    (hmin : pyGet keys i = some vmin)
    (hmax : pyGet keys (i + b - 1) = none) :
    replayLoop src keys b ok (fuel + 1) i k t = .indexFault (i + b - 1) ⟨i, k, t⟩ := by
  simp only [replayLoop, if_pos h, hmin, hmax]

/-! ### Characterizing full runs of the loop

`loop_done` covers every run of the loop (all appends succeeding) that
terminates normally: this happens exactly when some batch count `A`
satisfies `A*b = n-1` (the windows tile `keys[0..n-2]`) or `A*b = n`
with `b ≥ 2` (the final window lands exactly on the last index `n-1`).
`loop_fault` covers the remaining case `0 < (n-1) % b < b - 1`, where the
final entered iteration reads past the end of `datelist`. -/

theorem loop_done (src : List Record) (b : Int) (hb : 1 ≤ b) (A : Nat)
    (hA : A * b.toNat = (datelist src).length - 1 ∨
      (2 ≤ b.toNat ∧ A * b.toNat = (datelist src).length - 1 + 1)) :
    ∀ fuel c, c ≤ A → (datelist src).length ≤ fuel + c →
      replayLoop src (datelist src) b okAll fuel ((c * b.toNat : Nat) : Int) c
          (cumTable src b c) =
        .done ⟨((A * b.toNat : Nat) : Int), A, cumTable src b A⟩ := by
  have hB : 1 ≤ b.toNat := by omega
  intro fuel
  induction fuel with
  | zero =>
    intro c hc hfuel
    have h1 : c * 1 ≤ c * b.toNat := Nat.mul_le_mul_left c hB
    have hcond : ¬ ((c * b.toNat : Nat) : Int) < ((datelist src).length : Int) - 1 := by
      omega
    rw [replayLoop_exit hcond]
    have hA1 : A * 1 ≤ A * b.toNat := Nat.mul_le_mul_left A hB
    have h6 : A = 0 → A * b.toNat = 0 := fun h => by rw [h, Nat.zero_mul]
    have h7 : 1 ≤ A → 1 * b.toNat ≤ A * b.toNat := fun h => Nat.mul_le_mul_right _ h
    have hc_eq : c = A := by
      rcases hA with h3 | ⟨h2, h3⟩ <;> omega
    subst hc_eq
    rfl
  | succ fuel ih =>
    intro c hc hfuel
    by_cases hcond : ((c * b.toNat : Nat) : Int) < ((datelist src).length : Int) - 1
    · have hcB1 : c * b.toNat + 1 < (datelist src).length := by omega
      have hlt : c < A := by
        by_contra hge
        have h1 : A * b.toNat ≤ c * b.toNat := Nat.mul_le_mul_right _ (by omega)
        rcases hA with h3 | ⟨_, h3⟩ <;> omega
      have hsucc : (c + 1) * b.toNat = c * b.toNat + b.toNat := Nat.succ_mul c _
      have hin : c * b.toNat + b.toNat ≤ (datelist src).length := by
        by_contra hout
        have h1 : (c + 1) * b.toNat ≤ A * b.toNat := Nat.mul_le_mul_right _ (by omega)
        rcases hA with h3 | ⟨_, h3⟩ <;> omega
      have hmin : pyGet (datelist src) ((c * b.toNat : Nat) : Int) =
          some (batchMin src b c) := pyGet_in_getD (by omega)
      have harg : ((c * b.toNat : Nat) : Int) + b - 1 =
          ((c * b.toNat + b.toNat - 1 : Nat) : Int) := by omega
      have hmax : pyGet (datelist src) (((c * b.toNat : Nat) : Int) + b - 1) =
          some (batchMax src b c) := by
        rw [harg]
        exact pyGet_in_getD (by omega)
      rw [replayLoop_step hcond hmin hmax, if_pos (show okAll c = true from rfl)]
      have htab : cumTable src b c ++ src.filter
          (fun r => batchMin src b c ≤ r.price_date && r.price_date ≤ batchMax src b c) =
          cumTable src b (c + 1) := rfl
      have hcur : ((c * b.toNat : Nat) : Int) + b = (((c + 1) * b.toNat : Nat) : Int) := by
        omega
      rw [htab, hcur]
      exact ih (c + 1) (by omega) (by omega)
    · rw [replayLoop_exit hcond]
      have h1 : c * 1 ≤ c * b.toNat := Nat.mul_le_mul_left c hB
      have hc_eq : c = A := by
        by_contra hne
        have hlt : c < A := by omega
        have h2 : (c + 1) * b.toNat ≤ A * b.toNat := Nat.mul_le_mul_right _ (by omega)
        have hsucc : (c + 1) * b.toNat = c * b.toNat + b.toNat := Nat.succ_mul c _
        rcases hA with h3 | ⟨_, h3⟩ <;> omega
      subst hc_eq
      rfl

theorem loop_fault (src : List Record) (b : Int) (hb : 1 ≤ b) (q r : Nat)
    (hm : (datelist src).length - 1 = q * b.toNat + r)
    (hr0 : 0 < r) (hr1 : r + 1 < b.toNat) :
    ∀ fuel c, c ≤ q → (datelist src).length ≤ fuel + c →
      replayLoop src (datelist src) b okAll fuel ((c * b.toNat : Nat) : Int) c
          (cumTable src b c) =
        .indexFault ((q * b.toNat + b.toNat - 1 : Nat) : Int)
          ⟨((q * b.toNat : Nat) : Int), q, cumTable src b q⟩ := by
  have hB : 1 ≤ b.toNat := by omega
  have hn2 : 2 ≤ (datelist src).length := by
    by_contra h
    omega
  intro fuel
  induction fuel with
  | zero =>
    intro c hc hfuel
    exfalso
    have h1 : q * 1 ≤ q * b.toNat := Nat.mul_le_mul_left q hB
    omega
  | succ fuel ih =>
    intro c hc hfuel
    have hcq : c * b.toNat ≤ q * b.toNat := Nat.mul_le_mul_right _ hc
    have hcond : ((c * b.toNat : Nat) : Int) < ((datelist src).length : Int) - 1 := by
      omega
    have hmin : pyGet (datelist src) ((c * b.toNat : Nat) : Int) =
        some (batchMin src b c) := pyGet_in_getD (by omega)
    rcases Nat.lt_or_ge c q with hlt | hge
    · have hsucc : (c + 1) * b.toNat = c * b.toNat + b.toNat := Nat.succ_mul c _
      have hc1q : (c + 1) * b.toNat ≤ q * b.toNat := Nat.mul_le_mul_right _ hlt
      have harg : ((c * b.toNat : Nat) : Int) + b - 1 =
          ((c * b.toNat + b.toNat - 1 : Nat) : Int) := by omega
      have hmax : pyGet (datelist src) (((c * b.toNat : Nat) : Int) + b - 1) =
          some (batchMax src b c) := by
        rw [harg]
        exact pyGet_in_getD (by omega)
      rw [replayLoop_step hcond hmin hmax, if_pos (show okAll c = true from rfl)]
      have htab : cumTable src b c ++ src.filter
          (fun r => batchMin src b c ≤ r.price_date && r.price_date ≤ batchMax src b c) =
          cumTable src b (c + 1) := rfl
      have hcur : ((c * b.toNat : Nat) : Int) + b = (((c + 1) * b.toNat : Nat) : Int) := by
        omega
      rw [htab, hcur]
      exact ih (c + 1) (by omega) (by omega)
    · have hc_eq : c = q := by omega
      subst hc_eq
      have hmax : pyGet (datelist src) (((c * b.toNat : Nat) : Int) + b - 1) = none := by
        apply pyGet_out_int
        omega
      rw [replayLoop_step_fault hcond hmin hmax]
      have harg : ((c * b.toNat : Nat) : Int) + b - 1 =
          ((c * b.toNat + b.toNat - 1 : Nat) : Int) := by omega
      rw [harg]

/-- With an append oracle that succeeds on every batch before `f` and fails
on batch `f` (a batch whose iteration is entered and whose window is in
bounds), the loop halts at batch `f` with the failed batch's bounds; no
later batch is attempted and the table holds the batches before `f`. -/
theorem loop_oracle_fail (src : List Record) (b : Int) (hb : 1 ≤ b)
    (ok : Nat → Bool) (f : Nat)
    (hok : ∀ j, j < f → ok j = true) (hf : ok f = false)
    (hf1 : f * b.toNat + 1 < (datelist src).length)
    (hf2 : f * b.toNat + b.toNat ≤ (datelist src).length) :
    ∀ fuel c, c ≤ f → f + 1 ≤ fuel + c →
      replayLoop src (datelist src) b ok fuel ((c * b.toNat : Nat) : Int) c
          (cumTable src b c) =
        .appendFailed (batchMin src b f) (batchMax src b f)
          ⟨((f * b.toNat : Nat) : Int), f, cumTable src b f⟩ := by
  have hB : 1 ≤ b.toNat := by omega
  intro fuel
  induction fuel with
  | zero =>
    intro c hc hfuel
    exfalso
    omega
  | succ fuel ih =>
    intro c hc hfuel
    have hcf : c * b.toNat ≤ f * b.toNat := Nat.mul_le_mul_right _ hc
    have hcond : ((c * b.toNat : Nat) : Int) < ((datelist src).length : Int) - 1 := by
      omega
    have hmin : pyGet (datelist src) ((c * b.toNat : Nat) : Int) =
        some (batchMin src b c) := pyGet_in_getD (by omega)
    have hsucc : (c + 1) * b.toNat = c * b.toNat + b.toNat := Nat.succ_mul c _
    have hc1f : (c + 1) * b.toNat ≤ f * b.toNat ∨ c = f := by
      rcases Nat.lt_or_ge c f with hlt | hge
      · exact Or.inl (Nat.mul_le_mul_right _ hlt)
      · exact Or.inr (by omega)
    have harg : ((c * b.toNat : Nat) : Int) + b - 1 =
        ((c * b.toNat + b.toNat - 1 : Nat) : Int) := by omega
    have hmax : pyGet (datelist src) (((c * b.toNat : Nat) : Int) + b - 1) =
        some (batchMax src b c) := by
      rw [harg]
      refine pyGet_in_getD ?_
      rcases hc1f with h | h
      · omega
      · subst h
        omega
    rcases Nat.lt_or_ge c f with hlt | hge
    · rw [replayLoop_step hcond hmin hmax, if_pos (hok c hlt)]
      have htab : cumTable src b c ++ src.filter
          (fun r => batchMin src b c ≤ r.price_date && r.price_date ≤ batchMax src b c) =
          cumTable src b (c + 1) := rfl
      have hcur : ((c * b.toNat : Nat) : Int) + b = (((c + 1) * b.toNat : Nat) : Int) := by
        omega
      rw [htab, hcur]
      exact ih (c + 1) (by omega) (by omega)
    · have hc_eq : c = f := by omega
      subst hc_eq
      rw [replayLoop_step hcond hmin hmax, if_neg (by rw [hf]; exact Bool.false_ne_true)]

/-- Running the loop with fuel for exactly `j` more iterations, all of them
entered and in bounds: the state after those `j` completed appends. -/
theorem loop_steps (src : List Record) (b : Int) (hb : 1 ≤ b) :
    ∀ f c, (∀ j, c ≤ j → j < c + f →
        (j * b.toNat + 1 < (datelist src).length ∧
         j * b.toNat + b.toNat ≤ (datelist src).length)) →
      stOf (replayLoop src (datelist src) b okAll f ((c * b.toNat : Nat) : Int) c
          (cumTable src b c)) =
        ⟨(((c + f) * b.toNat : Nat) : Int), c + f, cumTable src b (c + f)⟩ := by
  have hB : 1 ≤ b.toNat := by omega
  intro f
  induction f with
  | zero =>
    intro c _
    by_cases hcond : ((c * b.toNat : Nat) : Int) < ((datelist src).length : Int) - 1
    · rw [replayLoop_fuel_zero hcond]
      rfl
    · rw [replayLoop_exit hcond]
      rfl
  | succ f ih =>
    intro c hv
    rcases hv c (le_refl c) (by omega) with ⟨h1, h2⟩
    have hcond : ((c * b.toNat : Nat) : Int) < ((datelist src).length : Int) - 1 := by
      omega
    have hmin : pyGet (datelist src) ((c * b.toNat : Nat) : Int) =
        some (batchMin src b c) := pyGet_in_getD (by omega)
    have harg : ((c * b.toNat : Nat) : Int) + b - 1 =
        ((c * b.toNat + b.toNat - 1 : Nat) : Int) := by omega
    have hmax : pyGet (datelist src) (((c * b.toNat : Nat) : Int) + b - 1) =
        some (batchMax src b c) := by
      rw [harg]
      exact pyGet_in_getD (by omega)
    rw [replayLoop_step hcond hmin hmax, if_pos (show okAll c = true from rfl)]
    have htab : cumTable src b c ++ src.filter
        (fun r => batchMin src b c ≤ r.price_date && r.price_date ≤ batchMax src b c) =
        cumTable src b (c + 1) := rfl
    have hcur : ((c * b.toNat : Nat) : Int) + b = (((c + 1) * b.toNat : Nat) : Int) := by
      have hsucc : (c + 1) * b.toNat = c * b.toNat + b.toNat := Nat.succ_mul c _
      omega
    rw [htab, hcur]
    have := ih (c + 1) (fun j hj1 hj2 => hv j (by omega) (by omega))
    rw [this]
    have : c + 1 + f = c + (f + 1) := by omega
    rw [this]

/-- With `daysAtOnce = 0` and at least two distinct keys, the cursor never
advances: every iteration appends the full window `datelist[0]..datelist[-1]`
(Python's negative index picks the last key) and the loop only stops by
running out of fuel, never by itself. -/
theorem loop_b_zero (src : List Record) (h2 : 2 ≤ (datelist src).length) :
    ∀ fuel k t,
      replayLoop src (datelist src) 0 okAll fuel 0 k t =
        .fuelOut ⟨0, k + fuel, t ++ fullRep src fuel⟩ := by
  intro fuel
  induction fuel with
  | zero =>
    intro k t
    rw [replayLoop_fuel_zero (by omega)]
    simp [fullRep]
  | succ fuel ih =>
    intro k t
    have hcond : (0 : Int) < ((datelist src).length : Int) - 1 := by omega
    have hmin : pyGet (datelist src) (0 : Int) = some ((datelist src).getD 0 0) := by
      have h0 : ((0 : Nat) : Int) = (0 : Int) := rfl
      rw [← h0]
      exact pyGet_in_getD (by omega)
    have harg : (0 : Int) + 0 - 1 = (-1 : Int) := by decide
    have hmax : pyGet (datelist src) ((0 : Int) + 0 - 1) =
        some ((datelist src).getD ((datelist src).length - 1) 0) := by
      rw [harg]
      exact pyGet_neg_one (by omega)
    rw [replayLoop_step hcond hmin hmax, if_pos (show okAll k = true from rfl)]
    have hz : (0 : Int) + 0 = (0 : Int) := by decide
    rw [hz, ih]
    have htab : t ++ src.filter (fun r => (datelist src).getD 0 0 ≤ r.price_date &&
          r.price_date ≤ (datelist src).getD ((datelist src).length - 1) 0) ++
          fullRep src fuel = t ++ fullRep src (fuel + 1) := by
      have hw : src.filter (fun r => (datelist src).getD 0 0 ≤ r.price_date &&
          r.price_date ≤ (datelist src).getD ((datelist src).length - 1) 0) =
          fullWin src := rfl
      rw [hw, List.append_assoc]
      rfl
    rw [htab]
    have hk : k + 1 + fuel = k + (fuel + 1) := by omega
    rw [hk]

/-! ### The table contents as a filter of the source -/

theorem filter_or_perm {α : Type} (l : List α) (p q : α → Bool)
    (h : ∀ x ∈ l, ¬(p x = true ∧ q x = true)) :
    (l.filter p ++ l.filter q).Perm (l.filter fun x => p x || q x) := by
  induction l with
  | nil => simp
  | cons x l ih =>
    have hx := h x (List.mem_cons_self x l)
    have hl : ∀ y ∈ l, ¬(p y = true ∧ q y = true) :=
      fun y hy => h y (List.mem_cons_of_mem x hy)
    cases hp : p x <;> cases hq : q x
    · simpa [List.filter_cons, hp, hq] using ih hl
    · simp only [List.filter_cons, hp, hq, Bool.false_or, cond_true, cond_false]
      refine List.Perm.trans (List.perm_middle) ?_
      exact (ih hl).cons x
    · simp only [List.filter_cons, hp, hq, Bool.true_or, cond_true, cond_false]
      exact (ih hl).cons x
    · exact absurd ⟨hp, hq⟩ hx

/-- Batch `c`'s window, as a constraint on the key's index in `datelist`:
for a key occurring at index `s`, membership in `[batchMin c, batchMax c]`
is exactly `c*b ≤ s ≤ c*b + b - 1` (when that window is in bounds). -/
theorem window_mem_iff (src : List Record) (b : Int) (hb : 1 ≤ b) (c : Nat)
    (hc : c * b.toNat + b.toNat ≤ (datelist src).length)
    (s : Nat) (hs : s < (datelist src).length) :
    ((batchMin src b c ≤ (datelist src).get ⟨s, hs⟩ ∧
      (datelist src).get ⟨s, hs⟩ ≤ batchMax src b c) ↔
      (c * b.toNat ≤ s ∧ s ≤ c * b.toNat + b.toNat - 1)) := by
  have hB : 1 ≤ b.toNat := by omega
  have hlo : c * b.toNat < (datelist src).length := by omega
  have hhi : c * b.toNat + b.toNat - 1 < (datelist src).length := by omega
  have hminget : batchMin src b c = (datelist src).get ⟨c * b.toNat, hlo⟩ := by
    unfold batchMin
    rw [List.getD_eq_get? , List.get?_eq_get hlo]
    rfl
  have hmaxget : batchMax src b c = (datelist src).get ⟨c * b.toNat + b.toNat - 1, hhi⟩ := by
    unfold batchMax
    rw [List.getD_eq_get? , List.get?_eq_get hhi]
    rfl
  rw [hminget, hmaxget]
  constructor
  · rintro ⟨h1, h2⟩
    exact ⟨keys_le_index hlo hs h1, keys_le_index hs hhi h2⟩
  · rintro ⟨h1, h2⟩
    exact ⟨keys_get_le h1 hlo hs, keys_get_le h2 hs hhi⟩

/-- After `c` in-bounds batches, the accumulated table is a permutation of
the source rows whose key lies in some processed window. -/
theorem cum_windows (src : List Record) (b : Int) (hb : 1 ≤ b) :
    ∀ c, (∀ j, j < c → j * b.toNat + b.toNat ≤ (datelist src).length) →
      (cumTable src b c).Perm (src.filter (inWindows src b c)) := by
  have hB : 1 ≤ b.toNat := by omega
  intro c
  induction c with
  | zero =>
    intro _
    simp [cumTable, inWindows]
  | succ c ih =>
    intro hv
    have hvc : ∀ j, j < c → j * b.toNat + b.toNat ≤ (datelist src).length :=
      fun j hj => hv j (by omega)
    have hper : (cumTable src b (c + 1)).Perm
        (src.filter (inWindows src b c) ++ window src b c) := by
      show (cumTable src b c ++ window src b c).Perm _
      exact (ih hvc).append (List.Perm.refl _)
    refine hper.trans ?_
    have hdisj : ∀ x ∈ src, ¬(inWindows src b c x = true ∧
        (batchMin src b c ≤ x.price_date && x.price_date ≤ batchMax src b c) = true) := by
      intro x hx ⟨hin, hwin⟩
      rcases key_index hx with ⟨s, hs, hkey⟩
      simp only [Bool.and_eq_true, decide_eq_true_eq] at hwin
      rw [← hkey] at hwin
      have hsw := (window_mem_iff src b hb c (hv c (by omega)) s hs).mp hwin
      simp only [inWindows, List.any_eq_true, List.mem_range, Bool.and_eq_true,
        decide_eq_true_eq] at hin
      rcases hin with ⟨j, hj, hjlo, hjhi⟩
      rw [← hkey] at hjlo hjhi
      have hsj := (window_mem_iff src b hb j (hvc j hj) s hs).mp ⟨hjlo, hjhi⟩
      have hj1 : (j + 1) * b.toNat ≤ c * b.toNat := Nat.mul_le_mul_right _ hj
      have hsucc : (j + 1) * b.toNat = j * b.toNat + b.toNat := Nat.succ_mul j _
      omega
    have hper2 := filter_or_perm src (inWindows src b c)
      (fun r => batchMin src b c ≤ r.price_date && r.price_date ≤ batchMax src b c) hdisj
    refine List.Perm.trans hper2 ?_
    have hfe : src.filter (fun x => inWindows src b c x ||
        (batchMin src b c ≤ x.price_date && x.price_date ≤ batchMax src b c)) =
        src.filter (inWindows src b (c + 1)) := by
      apply List.filter_congr
      intro x _
      simp only [inWindows, List.range_succ, List.any_append, List.any_cons, List.any_nil,
        Bool.or_false]
    rw [hfe]

/-- For `0 < c`, lying in one of the first `c` windows is the same as the
key being at most `datelist[c*b - 1]`, the top of the last processed
window: the windows tile the prefix of the key sequence with no gap. -/
theorem windowsUpTo (src : List Record) (b : Int) (hb : 1 ≤ b)
    (c : Nat) (hc0 : 0 < c)
    (hv : ∀ j, j < c → j * b.toNat + b.toNat ≤ (datelist src).length) :
    src.filter (inWindows src b c) =
      src.filter (fun r => r.price_date ≤ (datelist src).getD (c * b.toNat - 1) 0) := by
  have hB : 1 ≤ b.toNat := by omega
  have hcB : c * b.toNat ≤ (datelist src).length := by
    have h1 := hv (c - 1) (by omega)
    have h2 : (c - 1 + 1) * b.toNat = (c - 1) * b.toNat + b.toNat := Nat.succ_mul _ _
    have h3 : c - 1 + 1 = c := by omega
    rw [h3] at h2
    omega
  have hc1 : 1 * b.toNat ≤ c * b.toNat := Nat.mul_le_mul_right _ hc0
  have htop : c * b.toNat - 1 < (datelist src).length := by omega
  have htopget : (datelist src).getD (c * b.toNat - 1) 0 =
      (datelist src).get ⟨c * b.toNat - 1, htop⟩ := by
    rw [List.getD_eq_get? , List.get?_eq_get htop]
    rfl
  apply List.filter_congr
  intro x hx
  rcases key_index hx with ⟨s, hs, hkey⟩
  have hiff : (inWindows src b c x = true) ↔
      (x.price_date ≤ (datelist src).getD (c * b.toNat - 1) 0) := by
    constructor
    · intro hin
      simp only [inWindows, List.any_eq_true, List.mem_range, Bool.and_eq_true,
        decide_eq_true_eq] at hin
      rcases hin with ⟨j, hj, hjlo, hjhi⟩
      rw [← hkey] at hjlo hjhi
      have hsj := (window_mem_iff src b hb j (hv j hj) s hs).mp ⟨hjlo, hjhi⟩
      have hj1 : (j + 1) * b.toNat ≤ c * b.toNat := Nat.mul_le_mul_right _ hj
      have hsucc : (j + 1) * b.toNat = j * b.toNat + b.toNat := Nat.succ_mul j _
      rw [htopget, ← hkey]
      exact keys_get_le (by omega) hs htop
    · intro hle
      rw [htopget, ← hkey] at hle
      have hsle : s ≤ c * b.toNat - 1 := keys_le_index hs htop hle
      have hj : s / b.toNat < c := by
        rcases Nat.lt_or_ge (s / b.toNat) c with h | h
        · exact h
        · exfalso
          have h1 : c * b.toNat ≤ (s / b.toNat) * b.toNat := Nat.mul_le_mul_right _ h
          have h2 := Nat.div_mul_le_self s b.toNat
          omega
      have hdm := Nat.div_add_mod s b.toNat
      have hmod : s % b.toNat < b.toNat := Nat.mod_lt s (by omega)
      have hcomm : b.toNat * (s / b.toNat) = (s / b.toNat) * b.toNat := Nat.mul_comm _ _
      simp only [inWindows, List.any_eq_true, List.mem_range, Bool.and_eq_true,
        decide_eq_true_eq]
      refine ⟨s / b.toNat, hj, ?_⟩
      rw [← hkey]
      exact (window_mem_iff src b hb (s / b.toNat) (by
        have h1 : (s / b.toNat + 1) * b.toNat ≤ c * b.toNat := Nat.mul_le_mul_right _ hj
        have h2 : (s / b.toNat + 1) * b.toNat = (s / b.toNat) * b.toNat + b.toNat :=
          Nat.succ_mul _ _
        omega) s hs).mpr ⟨by omega, by omega⟩
  by_cases h : inWindows src b c x = true
  · rw [h]
    exact (decide_eq_true (hiff.mp h)).symm
  · have hfalse : inWindows src b c x = false := by
      cases hxx : inWindows src b c x
      · rfl
      · exact absurd hxx h
    rw [hfalse]
    have : ¬ (x.price_date ≤ (datelist src).getD (c * b.toNat - 1) 0) := fun hcon =>
      h (hiff.mpr hcon)
    exact (decide_eq_false this).symm

/-- Ceiling division `(m + B - 1) / B` by cases on `m % B`. -/
theorem ceil_div_char (B m : Nat) (hB : 0 < B) :
    (m + B - 1) / B = if m % B = 0 then m / B else m / B + 1 := by
  have hdm := Nat.div_add_mod m B
  have hmod : m % B < B := Nat.mod_lt m hB
  by_cases h : m % B = 0
  · rw [if_pos h]
    have h1 : m + B - 1 = (B - 1) + B * (m / B) := by omega
    rw [h1, Nat.add_mul_div_left _ _ hB, Nat.div_eq_of_lt (by omega)]
    omega
  · rw [if_neg h]
    have hb2 : B * (m / B + 1) = B * (m / B) + B := by ring
    have h1 : m + B - 1 = (m % B - 1) + B * (m / B + 1) := by omega
    rw [h1, Nat.add_mul_div_left _ _ hB, Nat.div_eq_of_lt (by omega)]
    omega

/-- The lower bound `datelist[0]` is satisfied by every source row, so the
two-sided window filter from the first key is a one-sided upper bound. -/
theorem filter_range_eq (src : List Record) (X : Nat)
    (hn : 0 < (datelist src).length) :
    src.filter (fun r =>
        (datelist src).getD 0 0 ≤ r.price_date && r.price_date ≤ X) =
      src.filter (fun r => r.price_date ≤ X) := by
  apply List.filter_congr
  intro x hx
  rcases key_index hx with ⟨s, hs, hkey⟩
  have h0 : (datelist src).getD 0 0 = (datelist src).get ⟨0, hn⟩ := by
    rw [List.getD_eq_get? , List.get?_eq_get hn]
    rfl
  have hle : (datelist src).getD 0 0 ≤ x.price_date := by
    rw [h0, ← hkey]
    exact keys_get_le (Nat.zero_le s) hn hs
  rw [decide_eq_true hle, Bool.true_and]

/-! ### The claims -/

/-- C7: for a source with at most one distinct ordering key (empty source
included), `datelist_len = len(datelist) - 1 <= 0`, so the loop body never
executes: no batch is appended, the table stays empty, the driver returns
normally and no index or division fault occurs — for any batch size, any
append oracle and any fuel. -/
theorem c7_small_source (src : List Record) (b : Int) (ok : Nat → Bool)
    (fuel : Nat) (hn : nKeys src ≤ 1) :
    replay src b ok fuel = .done ⟨0, 0, []⟩ := by
  apply replayLoop_exit
  simp only [nKeys] at hn
  omega

/-- Witness for C7 at a one-row source. -/
theorem c7_witness :
    nKeys [({ price_date := 5, payload := 7 } : Record)] ≤ 1 ∧
      replay [{ price_date := 5, payload := 7 }] 3 okAll 0 = .done ⟨0, 0, []⟩ :=
  ⟨by decide, c7_small_source _ 3 okAll 0 (by decide)⟩

/-- C9: the table bootstrap (delete the delta location, then write the
source data with `limit(0)` as overwrite) is idempotent: a second run
produces the same location state, an empty table carrying exactly the
source's schema. -/
theorem c9_bootstrap_idempotent (srcParquet : DeltaTable) (loc : Option DeltaTable) :
    bootstrapPrice srcParquet (bootstrapPrice srcParquet loc) =
        bootstrapPrice srcParquet loc ∧
      bootstrapPrice srcParquet loc = some ⟨srcParquet.schema, []⟩ :=
  ⟨rfl, rfl⟩

/-- C5: batches are appended in strictly ascending key order; a later
batch's lower bound is strictly greater than (in particular not less than)
any earlier batch's upper bound.  Every batch the loop actually appends
satisfies the stated bound `l * b + b ≤ n` on its window. -/
theorem c5_ascending (src : List Record) (b : Int) (j l : Nat) (hb : 1 ≤ b)
    (hjl : j < l) (hl : l * b.toNat + b.toNat ≤ nKeys src) :
    batchMax src b j < batchMin src b l := by
  have hB : 1 ≤ b.toNat := by omega
  simp only [nKeys] at hl
  have hj1 : (j + 1) * b.toNat ≤ l * b.toNat := Nat.mul_le_mul_right _ hjl
  have hsucc : (j + 1) * b.toNat = j * b.toNat + b.toNat := Nat.succ_mul j _
  have hlo : l * b.toNat < (datelist src).length := by omega
  have hhi : j * b.toNat + b.toNat - 1 < (datelist src).length := by omega
  unfold batchMax batchMin
  rw [List.getD_eq_get? , List.get?_eq_get hhi, List.getD_eq_get? , List.get?_eq_get hlo]
  simp only [Option.getD_some]
  exact keys_get_lt (by omega) hhi hlo

/-- Witness for C5 at the first two batches of a 7-key source. -/
theorem c5_witness : batchMax (srcN 7) 3 0 < batchMin (srcN 7) 3 1 :=
  c5_ascending (srcN 7) 3 0 1 (by decide) (by decide) (by decide)

/-- Starting state of a full run, in the shape the loop lemmas produce. -/
theorem replay_unfold (src : List Record) (b : Int) (ok : Nat → Bool) (fuel : Nat) :
    replayLoop src (datelist src) b ok fuel ((0 * b.toNat : Nat) : Int) 0
        (cumTable src b 0) =
      replay src b ok fuel := by
  rw [Nat.zero_mul]
  rfl

/-- C1 counterexample: with 5 distinct keys and `daysAtOnce = 3`, the
iteration at cursor `i = 3` (which satisfies `0 ≤ i < n-1 = 4`) reads the
upper bound at the unclamped index `i + 3 - 1 = 5 ≥ n`, raising an
`IndexError` — refuting both the claimed `min(i+b-1, n-1)` clamp and the
claimed impossibility of an index fault at this access. -/
theorem c1_counterexample :
    replay (srcN 5) 3 okAll 10 =
      .indexFault 5 ⟨3, 1, [⟨1, 0⟩, ⟨2, 0⟩, ⟨3, 0⟩]⟩ := by decide

/-- C1 (amended): the upper bound is read at the unclamped index
`i + batchSize - 1`; for a full run with every append succeeding, an index
fault occurs if and only if `0 < (n-1) % batchSize < batchSize - 1` (so the
access stays in bounds exactly when `batchSize` divides `n-1` or
`(n-1) % batchSize = batchSize - 1`, the overlap-into-last-index case). -/
theorem c1_amended (src : List Record) (b : Int) (fuel : Nat) (hb : 1 ≤ b)
    (hfuel : nKeys src ≤ fuel) :
    (∃ idx st, replay src b okAll fuel = .indexFault idx st) ↔
      (0 < (nKeys src - 1) % b.toNat ∧
        (nKeys src - 1) % b.toNat + 1 < b.toNat) := by
  have hB : 1 ≤ b.toNat := by omega
  simp only [nKeys] at hfuel ⊢
  have hdm := Nat.div_add_mod ((datelist src).length - 1) b.toNat
  have hmod : ((datelist src).length - 1) % b.toNat < b.toNat :=
    Nat.mod_lt _ (by omega)
  have hcomm : b.toNat * (((datelist src).length - 1) / b.toNat) =
      (((datelist src).length - 1) / b.toNat) * b.toNat := Nat.mul_comm _ _
  constructor
  · rintro ⟨idx, st, heq⟩
    by_contra hnot
    have hnf : ((datelist src).length - 1) % b.toNat = 0 ∨
        (((datelist src).length - 1) % b.toNat ≠ 0 ∧
          ((datelist src).length - 1) % b.toNat + 1 = b.toNat) := by
      by_cases h0 : ((datelist src).length - 1) % b.toNat = 0
      · exact Or.inl h0
      · exact Or.inr ⟨h0, by omega⟩
    have hA : ∃ A, A * b.toNat = (datelist src).length - 1 ∨
        (2 ≤ b.toNat ∧ A * b.toNat = (datelist src).length - 1 + 1) := by
      rcases hnf with h0 | ⟨h0, h1⟩
      · refine ⟨((datelist src).length - 1) / b.toNat, Or.inl ?_⟩
        omega
      · refine ⟨((datelist src).length - 1) / b.toNat + 1, Or.inr ⟨by omega, ?_⟩⟩
        have hsucc : (((datelist src).length - 1) / b.toNat + 1) * b.toNat =
            (((datelist src).length - 1) / b.toNat) * b.toNat + b.toNat :=
          Nat.succ_mul _ _
        omega
    rcases hA with ⟨A, hA⟩
    have hd := loop_done src b hb A hA fuel 0 (Nat.zero_le A) (by omega)
    rw [replay_unfold, heq] at hd
    exact Outcome.noConfusion hd
  · rintro ⟨hr0, hr1⟩
    have hf := loop_fault src b hb (((datelist src).length - 1) / b.toNat)
      (((datelist src).length - 1) % b.toNat) (by omega) hr0 hr1 fuel 0
      (Nat.zero_le _) (by omega)
    rw [replay_unfold] at hf
    exact ⟨_, _, hf⟩

/-- Witness for C1 (amended) at a 5-key source with batch size 3. -/
theorem c1_witness : ∃ idx st, replay (srcN 5) 3 okAll 5 = .indexFault idx st :=
  (c1_amended (srcN 5) 3 5 (by decide) (by decide)).mpr (by decide)

/-- C2 counterexample: with 5 distinct keys and batch size 3, only one
batch append completes — the second entered iteration faults on the index
access before its insert — although `ceil((n-1)/b) = ceil(4/3) = 2`. -/
theorem c2_counterexample :
    (stOf (replay (srcN 5) 3 okAll 10)).k = 1 ∧
      (nKeys (srcN 5) - 1 + (3 : Int).toNat - 1) / (3 : Int).toNat = 2 ∧
      replay (srcN 5) 3 okAll 10 =
        .indexFault 5 ⟨3, 1, [⟨1, 0⟩, ⟨2, 0⟩, ⟨3, 0⟩]⟩ := by decide

/-- C2 (amended): with every append succeeding, the loop appends no batch
when `n ≤ 1`; it terminates normally with exactly `ceil((n-1)/b)` appended
batches when `(n-1) % b ∈ {0, b-1}`; and otherwise it raises an index
fault after exactly `floor((n-1)/b)` appended batches. -/
theorem c2_amended (src : List Record) (b : Int) (fuel : Nat) (hb : 1 ≤ b)
    (hfuel : nKeys src ≤ fuel) :
    (nKeys src ≤ 1 → replay src b okAll fuel = .done ⟨0, 0, []⟩) ∧
    ((nKeys src - 1) % b.toNat = 0 ∨ (nKeys src - 1) % b.toNat = b.toNat - 1 →
      ∃ st, replay src b okAll fuel = .done st ∧
        st.k = (nKeys src - 1 + b.toNat - 1) / b.toNat) ∧
    (0 < (nKeys src - 1) % b.toNat ∧ (nKeys src - 1) % b.toNat + 1 < b.toNat →
      ∃ idx st, replay src b okAll fuel = .indexFault idx st ∧
        st.k = (nKeys src - 1) / b.toNat) := by
  have hB : 1 ≤ b.toNat := by omega
  simp only [nKeys] at hfuel ⊢
  have hdm := Nat.div_add_mod ((datelist src).length - 1) b.toNat
  have hmod : ((datelist src).length - 1) % b.toNat < b.toNat :=
    Nat.mod_lt _ (by omega)
  have hcomm : b.toNat * (((datelist src).length - 1) / b.toNat) =
      (((datelist src).length - 1) / b.toNat) * b.toNat := Nat.mul_comm _ _
  have hceil := ceil_div_char b.toNat ((datelist src).length - 1) (by omega)
  refine ⟨?_, ?_, ?_⟩
  · intro hn
    apply replayLoop_exit
    omega
  · intro hterm
    by_cases h0 : ((datelist src).length - 1) % b.toNat = 0
    · have hd := loop_done src b hb (((datelist src).length - 1) / b.toNat)
        (Or.inl (by omega)) fuel 0 (Nat.zero_le _) (by omega)
      rw [replay_unfold] at hd
      refine ⟨_, hd, ?_⟩
      rw [hceil, if_pos h0]
    · have hbm : ((datelist src).length - 1) % b.toNat = b.toNat - 1 := by
        rcases hterm with h | h
        · exact absurd h h0
        · exact h
      have hsucc : ((((datelist src).length - 1) / b.toNat) + 1) * b.toNat =
          (((datelist src).length - 1) / b.toNat) * b.toNat + b.toNat := Nat.succ_mul _ _
      have hd := loop_done src b hb ((((datelist src).length - 1) / b.toNat) + 1)
        (Or.inr ⟨by omega, by omega⟩) fuel 0 (Nat.zero_le _) (by omega)
      rw [replay_unfold] at hd
      refine ⟨_, hd, ?_⟩
      rw [hceil, if_neg h0]
  · rintro ⟨hr0, hr1⟩
    have hf := loop_fault src b hb (((datelist src).length - 1) / b.toNat)
      (((datelist src).length - 1) % b.toNat) (by omega) hr0 hr1 fuel 0
      (Nat.zero_le _) (by omega)
    rw [replay_unfold] at hf
    exact ⟨_, _, hf, rfl⟩

/-- Witness for C2 (amended) at a 7-key source with batch size 3 (the
divisible case: exactly 2 batches appended). -/
theorem c2_witness :
    ∃ st, replay (srcN 7) 3 okAll 7 = .done st ∧
      st.k = (nKeys (srcN 7) - 1 + (3 : Int).toNat - 1) / (3 : Int).toNat :=
  ((c2_amended (srcN 7) 3 7 (by decide) (by decide)).2).1 (by decide)

/-- C3: when the replay loop completes normally on a source with more than
one distinct key, the appended rows are exactly the source rows with key in
`[keys[0], keys[n-2]]` — and the last distinct key's rows are absent — when
`batchSize` divides `n-1`; otherwise (the loop having completed, the final
window overlapped onto the last index) they are exactly the rows in
`[keys[0], keys[n-1]]`, the caveated overlap case of the claim. -/
theorem c3_final_table (src : List Record) (b : Int) (fuel : Nat) (st : St)
    (hb : 1 ≤ b) (hn : 1 < nKeys src) (hfuel : nKeys src ≤ fuel)
    (hdone : replay src b okAll fuel = .done st) :
    (b.toNat ∣ nKeys src - 1 →
      st.table.Perm (src.filter (fun r =>
        (datelist src).getD 0 0 ≤ r.price_date &&
          r.price_date ≤ (datelist src).getD (nKeys src - 2) 0)) ∧
      ∀ r ∈ st.table, r.price_date ≠ (datelist src).getD (nKeys src - 1) 0) ∧
    (¬ b.toNat ∣ nKeys src - 1 →
      st.table.Perm (src.filter (fun r =>
        (datelist src).getD 0 0 ≤ r.price_date &&
          r.price_date ≤ (datelist src).getD (nKeys src - 1) 0))) := by
  have hB : 1 ≤ b.toNat := by omega
  simp only [nKeys] at hn hfuel ⊢
  have hdm := Nat.div_add_mod ((datelist src).length - 1) b.toNat
  have hmod : ((datelist src).length - 1) % b.toNat < b.toNat :=
    Nat.mod_lt _ (by omega)
  have hcomm : b.toNat * (((datelist src).length - 1) / b.toNat) =
      (((datelist src).length - 1) / b.toNat) * b.toNat := Nat.mul_comm _ _
  have hdvd : b.toNat ∣ (datelist src).length - 1 ↔
      ((datelist src).length - 1) % b.toNat = 0 :=
    Nat.dvd_iff_mod_eq_zero
  by_cases hfault : 0 < ((datelist src).length - 1) % b.toNat ∧
      ((datelist src).length - 1) % b.toNat + 1 < b.toNat
  · exfalso
    have hf := loop_fault src b hb (((datelist src).length - 1) / b.toNat)
      (((datelist src).length - 1) % b.toNat) (by omega) hfault.1 hfault.2
      fuel 0 (Nat.zero_le _) (by omega)
    rw [replay_unfold, hdone] at hf
    exact Outcome.noConfusion hf
  · by_cases h0 : ((datelist src).length - 1) % b.toNat = 0
    · have hA1 : (((datelist src).length - 1) / b.toNat) * b.toNat =
          (datelist src).length - 1 := by omega
      have hd := loop_done src b hb (((datelist src).length - 1) / b.toNat)
        (Or.inl hA1) fuel 0 (Nat.zero_le _) (by omega)
      rw [replay_unfold, hdone] at hd
      injection hd with hst
      subst hst
      have hApos : 1 ≤ ((datelist src).length - 1) / b.toNat := by
        rcases Nat.eq_zero_or_pos (((datelist src).length - 1) / b.toNat) with hz | hpos
        · exfalso
          rw [hz, Nat.zero_mul] at hA1
          omega
        · exact hpos
      have hv : ∀ j, j < ((datelist src).length - 1) / b.toNat →
          j * b.toNat + b.toNat ≤ (datelist src).length := by
        intro j hj
        have h1 : (j + 1) * b.toNat ≤
            (((datelist src).length - 1) / b.toNat) * b.toNat :=
          Nat.mul_le_mul_right _ hj
        have hsucc : (j + 1) * b.toNat = j * b.toNat + b.toNat := Nat.succ_mul j b.toNat
        omega
      have hperm := cum_windows src b hb _ hv
      rw [windowsUpTo src b hb _ hApos hv] at hperm
      have hidx : (((datelist src).length - 1) / b.toNat) * b.toNat - 1 =
          (datelist src).length - 2 := by omega
      rw [hidx] at hperm
      refine ⟨fun _ => ⟨?_, ?_⟩, fun hnd => absurd (hdvd.mpr h0) hnd⟩
      · rw [filter_range_eq src _ (by omega)]
        exact hperm
      · intro r hr
        have hrf := List.mem_filter.mp ((hperm.mem_iff).mp hr)
        have hle : r.price_date ≤ (datelist src).getD ((datelist src).length - 2) 0 := by
          simpa using hrf.2
        have h2 : (datelist src).length - 2 < (datelist src).length := by omega
        have h1 : (datelist src).length - 1 < (datelist src).length := by omega
        have hlt : (datelist src).getD ((datelist src).length - 2) 0 <
            (datelist src).getD ((datelist src).length - 1) 0 := by
          rw [List.getD_eq_get? , List.get?_eq_get h2,
            List.getD_eq_get? , List.get?_eq_get h1]
          simp only [Option.getD_some]
          exact keys_get_lt (by omega) h2 h1
        omega
    · have hr1 : ((datelist src).length - 1) % b.toNat + 1 = b.toNat := by omega
      have hB2 : 2 ≤ b.toNat := by omega
      have hA2 : ((((datelist src).length - 1) / b.toNat) + 1) * b.toNat =
          (datelist src).length - 1 + 1 := by
        have hsucc : ((((datelist src).length - 1) / b.toNat) + 1) * b.toNat =
            (((datelist src).length - 1) / b.toNat) * b.toNat + b.toNat :=
          Nat.succ_mul _ b.toNat
        omega
      have hd := loop_done src b hb ((((datelist src).length - 1) / b.toNat) + 1)
        (Or.inr ⟨hB2, hA2⟩) fuel 0 (Nat.zero_le _) (by omega)
      rw [replay_unfold, hdone] at hd
      injection hd with hst
      subst hst
      have hv : ∀ j, j < (((datelist src).length - 1) / b.toNat) + 1 →
          j * b.toNat + b.toNat ≤ (datelist src).length := by
        intro j hj
        have h1 : (j + 1) * b.toNat ≤
            ((((datelist src).length - 1) / b.toNat) + 1) * b.toNat :=
          Nat.mul_le_mul_right _ hj
        have hsucc : (j + 1) * b.toNat = j * b.toNat + b.toNat := Nat.succ_mul j b.toNat
        omega
      have hperm := cum_windows src b hb _ hv
      rw [windowsUpTo src b hb _ (Nat.succ_pos _) hv] at hperm
      have hidx : ((((datelist src).length - 1) / b.toNat) + 1) * b.toNat - 1 =
          (datelist src).length - 1 := by omega
      rw [hidx] at hperm
      refine ⟨fun hdv => absurd (hdvd.mp hdv) h0, fun _ => ?_⟩
      rw [filter_range_eq src _ (by omega)]
      exact hperm

/-- Witness for C3 at a 7-key source with batch size 3 (divisible case). -/
theorem c3_witness :
    ∃ st, replay (srcN 7) 3 okAll 7 = .done st ∧
      st.table.Perm ((srcN 7).filter (fun r =>
        (datelist (srcN 7)).getD 0 0 ≤ r.price_date &&
          r.price_date ≤ (datelist (srcN 7)).getD (nKeys (srcN 7) - 2) 0)) := by
  refine ⟨⟨6, 2, [⟨1, 0⟩, ⟨2, 0⟩, ⟨3, 0⟩, ⟨4, 0⟩, ⟨5, 0⟩, ⟨6, 0⟩]⟩, by decide, ?_⟩
  exact ((c3_final_table (srcN 7) 3 7 _ (by decide) (by decide) (by decide)
    (by decide)).1 (by decide)).1

/-- C4: after each completed batch append (the target table starting
empty), the table state is exactly — up to order, with no duplicate and no
omission — the source rows whose key lies in one of the windows processed
so far; running the loop with fuel for exactly `c` iterations exhibits the
table immediately after the `c`-th append. -/
theorem c4_invariant (src : List Record) (b : Int) (c : Nat) (hb : 1 ≤ b)
    (hv : ∀ j, j < c →
      (j * b.toNat + 1 < nKeys src ∧ j * b.toNat + b.toNat ≤ nKeys src)) :
    (stOf (replay src b okAll c)).table.Perm (src.filter (inWindows src b c)) ∧
    (stOf (replay src b okAll c)).k = c ∧
    (stOf (replay src b okAll c)).i = ((c * b.toNat : Nat) : Int) := by
  have hB : 1 ≤ b.toNat := by omega
  simp only [nKeys] at hv
  have hsteps := loop_steps src b hb c 0 (fun j h1 h2 => hv j (by omega))
  rw [replay_unfold] at hsteps
  simp only [Nat.zero_add] at hsteps
  rw [hsteps]
  exact ⟨cum_windows src b hb c (fun j hj => (hv j hj).2), rfl, rfl⟩

/-- Witness for C4 after the first batch of a 7-key source. -/
theorem c4_witness :
    (stOf (replay (srcN 7) 3 okAll 1)).table.Perm
        ((srcN 7).filter (inWindows (srcN 7) 3 1)) ∧
      (stOf (replay (srcN 7) 3 okAll 1)).k = 1 ∧
      (stOf (replay (srcN 7) 3 okAll 1)).i = ((1 * (3 : Int).toNat : Nat) : Int) :=
  c4_invariant (srcN 7) 3 1 (by decide) (by decide)

/-- C6: if the appends of all batches before `f` succeed and batch `f`'s
append fails (its iteration being entered with an in-bounds window), the
run surfaces the failure immediately, carrying batch `f`'s bounds; the
cursor stays at batch `f`, no later batch is attempted, and the table holds
exactly the rows of the batches strictly before `f`. -/
theorem c6_append_failure (src : List Record) (b : Int) (ok : Nat → Bool)
    (f fuel : Nat) (hb : 1 ≤ b)
    (hok : ∀ j, j < f → ok j = true) (hf : ok f = false)
    (hf1 : f * b.toNat + 1 < nKeys src) (hf2 : f * b.toNat + b.toNat ≤ nKeys src)
    (hfuel : f + 1 ≤ fuel) :
    replay src b ok fuel =
      .appendFailed (batchMin src b f) (batchMax src b f)
        ⟨((f * b.toNat : Nat) : Int), f, cumTable src b f⟩ ∧
    (cumTable src b f).Perm (src.filter (inWindows src b f)) := by
  have hB : 1 ≤ b.toNat := by omega
  simp only [nKeys] at hf1 hf2
  constructor
  · have h := loop_oracle_fail src b hb ok f hok hf hf1 hf2 fuel 0
      (Nat.zero_le f) (by omega)
    rw [replay_unfold] at h
    exact h
  · refine cum_windows src b hb f (fun j hj => ?_)
    have h1 : (j + 1) * b.toNat ≤ f * b.toNat := Nat.mul_le_mul_right _ hj
    have hsucc : (j + 1) * b.toNat = j * b.toNat + b.toNat := Nat.succ_mul j b.toNat
    omega

/-- Witness for C6: the second batch's append fails on a 7-key source. -/
theorem c6_witness :
    replay (srcN 7) 3 (fun k => decide (k < 1)) 7 =
      .appendFailed (batchMin (srcN 7) 3 1) (batchMax (srcN 7) 3 1)
        ⟨((1 * (3 : Int).toNat : Nat) : Int), 1, cumTable (srcN 7) 3 1⟩ ∧
    (cumTable (srcN 7) 3 1).Perm ((srcN 7).filter (inWindows (srcN 7) 3 1)) :=
  c6_append_failure (srcN 7) 3 _ 1 7 (by decide) (by decide) (by decide)
    (by decide) (by decide) (by decide)

/-- C8 counterexample: with `batchSize = 0` and two distinct keys, the run
appends the entire source (via Python's negative index `datelist[-1]`)
without raising any configuration error — no fail-fast, and the table is
mutated. -/
theorem c8_counterexample :
    (stOf (replay (srcN 2) 0 okAll 1)).table = [⟨1, 0⟩, ⟨2, 0⟩] ∧
      replay (srcN 2) 0 okAll 1 = .fuelOut ⟨0, 1, [⟨1, 0⟩, ⟨2, 0⟩]⟩ := by decide

/-- C8 (amended): the code performs no `batchSize` validation at all.  With
`batchSize = 0` and at least two distinct keys the cursor never advances:
every iteration appends the full window `datelist[0]..datelist[-1]` and the
loop never terminates by itself (for every fuel it is still running),
mutating the table without any error being raised. -/
theorem c8_no_validation (src : List Record) (fuel : Nat) (h2 : 2 ≤ nKeys src) :
    replay src 0 okAll fuel = .fuelOut ⟨0, fuel, fullRep src fuel⟩ := by
  simp only [nKeys] at h2
  have h := loop_b_zero src h2 fuel 0 []
  simpa using h

/-- Witness for C8 (amended) at a 2-key source with one fuel unit. -/
theorem c8_witness :
    replay (srcN 2) 0 okAll 1 = .fuelOut ⟨0, 1, fullRep (srcN 2) 1⟩ :=
  c8_no_validation (srcN 2) 1 (by decide)

/-- C10 counterexample: with 6 distinct keys and batch size 3 we have
`(n-1) % b = 2 ≠ 0`, yet the run completes normally (the final window's
unclamped index is exactly `n-1`), refuting the claimed fault condition
`(n-1) mod b ≠ 0`. -/
theorem c10_counterexample :
    (nKeys (srcN 6) - 1) % (3 : Int).toNat ≠ 0 ∧
      replay (srcN 6) 3 okAll 10 =
        .done ⟨6, 2, [⟨1, 0⟩, ⟨2, 0⟩, ⟨3, 0⟩, ⟨4, 0⟩, ⟨5, 0⟩, ⟨6, 0⟩]⟩ := by decide

/-- C10 (amended): the run (all appends succeeding) ends in an index fault
iff `0 < (n-1) % b < b - 1`; in that case the faulting access is at index
`floor((n-1)/b)*b + b - 1 ≥ n`, exactly `floor((n-1)/b)` batches were
appended first, and the table holds exactly those batches' rows. -/
theorem c10_fault_state (src : List Record) (b : Int) (fuel : Nat)
    (hb : 1 ≤ b) (hn : 1 < nKeys src)
    (hr0 : 0 < (nKeys src - 1) % b.toNat)
    (hr1 : (nKeys src - 1) % b.toNat + 1 < b.toNat)
    (hfuel : nKeys src ≤ fuel) :
    replay src b okAll fuel =
      .indexFault (((nKeys src - 1) / b.toNat * b.toNat + b.toNat - 1 : Nat) : Int)
        ⟨(((nKeys src - 1) / b.toNat * b.toNat : Nat) : Int),
          (nKeys src - 1) / b.toNat, cumTable src b ((nKeys src - 1) / b.toNat)⟩ ∧
    (nKeys src : Int) ≤
      (((nKeys src - 1) / b.toNat * b.toNat + b.toNat - 1 : Nat) : Int) ∧
    (cumTable src b ((nKeys src - 1) / b.toNat)).Perm
      (src.filter (inWindows src b ((nKeys src - 1) / b.toNat))) := by
  have hB : 1 ≤ b.toNat := by omega
  simp only [nKeys] at hn hr0 hr1 hfuel ⊢
  have hdm := Nat.div_add_mod ((datelist src).length - 1) b.toNat
  have hmod : ((datelist src).length - 1) % b.toNat < b.toNat :=
    Nat.mod_lt _ (by omega)
  have hcomm : b.toNat * (((datelist src).length - 1) / b.toNat) =
      (((datelist src).length - 1) / b.toNat) * b.toNat := Nat.mul_comm _ _
  refine ⟨?_, by omega, ?_⟩
  · have hf := loop_fault src b hb (((datelist src).length - 1) / b.toNat)
      (((datelist src).length - 1) % b.toNat) (by omega) hr0 hr1 fuel 0
      (Nat.zero_le _) (by omega)
    rw [replay_unfold] at hf
    exact hf
  · refine cum_windows src b hb _ (fun j hj => ?_)
    have h1 : (j + 1) * b.toNat ≤ (((datelist src).length - 1) / b.toNat) * b.toNat :=
      Nat.mul_le_mul_right _ hj
    have hsucc : (j + 1) * b.toNat = j * b.toNat + b.toNat := Nat.succ_mul j b.toNat
    omega

/-- Witness for C10 (amended) at a 5-key source with batch size 3. -/
theorem c10_witness :
    replay (srcN 5) 3 okAll 5 =
      .indexFault (((nKeys (srcN 5) - 1) / (3 : Int).toNat * (3 : Int).toNat +
          (3 : Int).toNat - 1 : Nat) : Int)
        ⟨(((nKeys (srcN 5) - 1) / (3 : Int).toNat * (3 : Int).toNat : Nat) : Int),
          (nKeys (srcN 5) - 1) / (3 : Int).toNat,
          cumTable (srcN 5) 3 ((nKeys (srcN 5) - 1) / (3 : Int).toNat)⟩ ∧
    (nKeys (srcN 5) : Int) ≤
      (((nKeys (srcN 5) - 1) / (3 : Int).toNat * (3 : Int).toNat +
        (3 : Int).toNat - 1 : Nat) : Int) ∧
    (cumTable (srcN 5) 3 ((nKeys (srcN 5) - 1) / (3 : Int).toNat)).Perm
      ((srcN 5).filter (inWindows (srcN 5) 3 ((nKeys (srcN 5) - 1) / (3 : Int).toNat))) :=
  c10_fault_state (srcN 5) 3 5 (by decide) (by decide) (by decide) (by decide)
    (by decide)
